import Mathlib

/-!
Shallow embedding of `Banker.py` (Banker's algorithm with dynamic resources).

Resource vectors are Python lists of (arbitrary-precision) integers, modelled
as `List Int`.  Python loops of the form `for i in range(len(xs))` are
modelled by structural recursion on the list that drives the loop; clauses
that are only reachable when Python would raise an `IndexError` (an index
running past a shorter companion list) are marked in comments.  Threading
locks carry no state semantics in a sequential shallow embedding and are
omitted from the structures; the lock-acquisition line of
`request_resources` is discussed in the results, not modelled here.
-/

abbrev Vec := List Int

/-- Python's `any(request[i] > v[i] for i in range(len(request)))`: short-circuiting
scan over the request vector.  The clause pairing a non-empty request with an
exhausted `v` corresponds to a Python `IndexError`; it is unreachable for the
equal-length vectors of constructed states. -/
def anyGt : Vec → Vec → Bool
  | [], _ => false
  | _ :: _, [] => false
  | r :: rs, x :: xs => decide (x < r) || anyGt rs xs

/-- Python's `all(need[j] <= work[j] for j in range(len(work)))`: the loop is driven by
`work`.  The clause with `work` non-empty and `need` exhausted corresponds to
a Python `IndexError`; unreachable for equal-length vectors. -/
def leAll : Vec → Vec → Bool
  | _, [] => true
  | [], _ :: _ => true
  | n :: ns, w :: ws => decide (n ≤ w) && leAll ns ws

/-- Pointwise sum `[work[j] + a[j] for j in range(len(work))]`: the loop is driven by
`work`, so the result always has the length of `work`.  The clause with `a`
exhausted corresponds to a Python `IndexError`; unreachable for the
equal-length vectors of constructed states. -/
def addVec : Vec → Vec → Vec
  | [], _ => []
  | w :: ws, [] => w :: addVec ws []
  | w :: ws, a :: bs => (w + a) :: addVec ws bs

/-- Mutation loop `for i in range(len(request)): v[i] += request[i]` - mutation driven by
the (possibly shorter) request vector; components of `v` beyond the request
are untouched.  The clause with `v` exhausted corresponds to a Python
`IndexError`; `request_resources` only reaches the mutation after its two
`any(...)` checks have walked the full request against `need` and
`available`, so there `v` is never shorter than the request. -/
def addReq : Vec → Vec → Vec
  | v, [] => v
  | [], _ :: _ => []
  | x :: xs, r :: rs => (x + r) :: addReq xs rs

/-- Mutation loop `for i in range(len(request)): v[i] -= request[i]` - see `addReq`. -/
def subReq : Vec → Vec → Vec
  | v, [] => v
  | [], _ :: _ => []
  | x :: xs, r :: rs => (x - r) :: subReq xs rs

/-- Python `class Process`: `need` is stored, computed at construction by
`mkProcess` below, and updated transactionally by `request_resources`. -/
structure Process where
  id : Nat
  max_resources : Vec
  allocated_resources : Vec
  need : Vec
  deriving DecidableEq, Repr

/-- Constructor `Process.__init__`: `need = [max[i] - alloc[i] for i in range(len(max))]`
(zipWith truncates where Python would raise for a too-short `alloc`). -/
def mkProcess (id : Nat) (max_resources allocated_resources : Vec) : Process :=
  { id := id
    max_resources := max_resources
    allocated_resources := allocated_resources
    need := List.zipWith (fun m a => m - a) max_resources allocated_resources }

/-- Python `class Resource` / `class DynamicResource` (the subclass adds no state):
`available_resources = total_resources.copy()`. -/
structure Resource where
  total_resources : Vec
  available_resources : Vec
  deriving DecidableEq, Repr

/-- Constructor `Resource.__init__(total_resources)`. -/
def mkResource (total_resources : Vec) : Resource :=
  { total_resources := total_resources, available_resources := total_resources }

/-- Method `DynamicResource.add_resources`: both loops run over
`range(len(self.total_resources))`; in every constructed state
`available_resources` has the same length as `total_resources`, so the
second loop is `addVec available additional` as well. -/
def add_resources (r : Resource) (additional_resources : Vec) : Resource :=
  { total_resources := addVec r.total_resources additional_resources
    available_resources := addVec r.available_resources additional_resources }

/-- One full `for i, process in enumerate(processes)` scan of `is_safe_state`:
every not-yet-finished process whose need fits the current `work` is marked
finished and its allocation added to `work` immediately (no `break`).
Returns the updated work vector, the updated finish list, and the `found`
flag.  The clause with a non-empty process list and an exhausted finish list
is unreachable: `finish` starts as `[False] * len(processes)` and its length
is preserved. -/
def safePass : List Process → List Bool → Vec → Vec × List Bool × Bool
  | [], _, work => (work, [], false)
  | _ :: _, [], work => (work, [], false)
  | p :: ps, f :: fs, work =>
    if !f && leAll p.need work then
      match safePass ps fs (addVec work p.allocated_resources) with
      | (w2, fs2, _) => (w2, true :: fs2, true)
    else
      match safePass ps fs work with
      | (w2, fs2, found) => (w2, f :: fs2, found)

/-- The `while True` loop of `is_safe_state`: repeat full passes until one
finds nothing.  Each productive pass strictly decreases the number of
unfinished processes, so `processes.length + 1` rounds of fuel always reach
the unproductive pass that breaks the loop (`safeLoop_fuel_stable` below
makes the fuel-independence explicit). -/
def safeLoop : Nat → List Process → Vec → List Bool → List Bool
  | 0, _, _, finish => finish
  | fuel + 1, ps, work, finish =>
    match safePass ps finish work with
    | (w2, fs2, found) => if found then safeLoop fuel ps w2 fs2 else finish

/-- Function `is_safe_state(processes, available_resources)`. -/
def is_safe_state (processes : List Process) (available_resources : Vec) : Bool :=
  (safeLoop (processes.length + 1) processes available_resources
    (List.replicate processes.length false)).all (fun b => b)

/-- One inner `for` scan of `get_safe_sequence`: unlike `safePass` it stops
at the **first** fitting unfinished process (`break`), returning the updated
work, finish list and the discovered process id, or `none` if no unfinished
process fits. -/
def seqPass : List Process → List Bool → Vec → Option (Vec × List Bool × Nat)
  | [], _, _ => none
  | _ :: _, [], _ => none
  | p :: ps, f :: fs, work =>
    if !f && leAll p.need work then
      some (addVec work p.allocated_resources, true :: fs, p.id)
    else
      match seqPass ps fs work with
      | none => none
      | some (w2, fs2, i) => some (w2, f :: fs2, i)

/-- The `while len(sequence) < len(processes)` loop of `get_safe_sequence`:
each round either appends exactly one id or returns `None`, so
`processes.length` rounds of fuel are exactly enough; the fuel-exhausted
clause is unreachable from `get_safe_sequence`'s initial call. -/
def seqLoop : Nat → List Process → Vec → List Bool → List Nat → Option (List Nat)
  | 0, ps, _, _, sequence =>
    if sequence.length < ps.length then none else some sequence
  | fuel + 1, ps, work, finish, sequence =>
    if sequence.length < ps.length then
      match seqPass ps finish work with
      | none => none
      | some (w2, fs2, i) => seqLoop fuel ps w2 fs2 (sequence ++ [i])
    else some sequence

/-- Function `get_safe_sequence(processes, available_resources)`. -/
def get_safe_sequence (processes : List Process) (available_resources : Vec) :
    Option (List Nat) :=
  seqLoop processes.length processes available_resources
    (List.replicate processes.length false) []

/-- The mutable program state touched by `request_resources`: the process
list and the resource pool.  In Python the requesting process is one of the
objects inside `processes`, so mutating it mutates the list entry; we model
the requester by its index. -/
structure SysState where
  processes : List Process
  resources : Resource
  deriving DecidableEq, Repr

/-- Function `request_resources(process, request, processes, resources)` where
`process is processes[idx]` (every caller in the source passes an element of
`processes`; an out-of-range index, which has no Python counterpart, is
modelled as a state-preserving denial).  The speculative apply and the
rollback are modelled exactly as in the source: componentwise subtract /
add over the request's indices, rollback being the arithmetic inverse. -/
def request_resources (s : SysState) (idx : Nat) (request : Vec) :
    (Bool × String) × SysState :=
  match s.processes[idx]? with
  | none => ((false, "invalid process"), s)
  | some p =>
    if anyGt request p.need then
      ((false, "Request exceeds maximum claim"), s)
    else if anyGt request s.resources.available_resources then
      ((false, "Resources not available"), s)
    else
      let p1 : Process :=
        { p with allocated_resources := addReq p.allocated_resources request
                 need := subReq p.need request }
      let avail1 := subReq s.resources.available_resources request
      let processes1 := s.processes.set idx p1
      if is_safe_state processes1 avail1 then
        ((true, "Request granted"),
         { processes := processes1
           resources := { s.resources with available_resources := avail1 } })
      else
        let p2 : Process :=
          { p1 with allocated_resources := subReq p1.allocated_resources request
                    need := addReq p1.need request }
        ((false, "Unsafe state"),
         { processes := processes1.set idx p2
           resources := { s.resources with
                            available_resources := addReq avail1 request } })

/-- The monitor's per-type allocation sum from `race_condition_monitor`:
`[sum(p.allocated_resources[i] for p in processes) for i in range(len(total))]`. -/
def total_allocated (processes : List Process) (total : Vec) : Vec :=
  processes.foldl (fun acc p => addVec acc p.allocated_resources)
    (total.map (fun _ => (0 : Int)))

/-! The concrete `__main__` construction. -/

def proc0 : Process := mkProcess 0 [7, 5, 3] [0, 1, 0]
def proc1 : Process := mkProcess 1 [3, 2, 2] [2, 0, 0]
def proc2 : Process := mkProcess 2 [9, 0, 2] [3, 0, 2]
def proc3 : Process := mkProcess 3 [2, 2, 2] [2, 1, 1]
def proc4 : Process := mkProcess 4 [4, 3, 3] [0, 0, 2]

def mainProcesses : List Process := [proc0, proc1, proc2, proc3, proc4]

/-- The `__main__` pool `resources = DynamicResource([10, 5, 7])` plus the process table. -/
def mainState : SysState :=
  { processes := mainProcesses, resources := mkResource [10, 5, 7] }

/-- A small two-process, one-resource-type pool used to exercise the
unsafe-state rollback path concretely. -/
def tightState : SysState :=
  { processes := [mkProcess 0 [3] [0], mkProcess 1 [3] [0]]
    resources := mkResource [2] }

/-! Specification-level notions used to state the refinement claims: a valid
finishing order in the sense of the spec's glossary ("a state from which
every claimant can eventually complete in some order without exceeding
available resources at each step"). -/

/-- Predicate `validChain work l`: running the claimants of `l` in order, each one's
`need` fits the current work vector, after which its full allocation is
released into the work vector. -/
def validChain (work : Vec) : List Process → Bool
  | [] => true
  | p :: rest => leAll p.need work && validChain (addVec work p.allocated_resources) rest

/-- The work vector at the end of a finishing chain. -/
def chainEnd (work : Vec) : List Process → Vec
  | [] => work
  | p :: rest => chainEnd (addVec work p.allocated_resources) rest

/-- Some ordering of `rem` is a valid finishing chain from `work`. -/
def ChainFrom (work : Vec) (rem : List Process) : Prop :=
  ∃ l, List.Perm rem l ∧ validChain work l = true

/-- A safe state in the spec's sense: some ordering of all claimants is a
valid finishing chain from the available vector. -/
def SafeExists (processes : List Process) (available : Vec) : Prop :=
  ChainFrom available processes

/-- The data model's constraint that allocation vectors are resource vectors
(componentwise non-negative). -/
def allocNonneg (processes : List Process) : Prop :=
  ∀ p ∈ processes, ∀ x ∈ p.allocated_resources, 0 ≤ x

/-- Processes of the finish mask still unfinished, in list order. -/
def unfinished : List Process → List Bool → List Process
  | [], _ => []
  | _ :: _, [] => []
  | p :: ps, f :: fs => if f then unfinished ps fs else p :: unfinished ps fs

/-- Number of `false` entries of a finish mask. -/
def countFalse : List Bool → Nat
  | [] => 0
  | b :: bs => (if b then 0 else 1) + countFalse bs

/-! ### Vector lemmas -/

theorem addVec_length (w a : Vec) : (addVec w a).length = w.length := by
  induction w generalizing a with
  | nil => simp [addVec]
  | cons x xs ih =>
    cases a with
    | nil => simp [addVec, ih]
    | cons b bs => simp [addVec, ih]

theorem le_addVec (w : Vec) (d : Vec) (hd : ∀ x ∈ d, 0 ≤ x) :
    List.Forall₂ (· ≤ ·) w (addVec w d) := by
  induction w generalizing d with
  | nil => simp [addVec]
  | cons x xs ih =>
    cases d with
    | nil =>
      exact List.Forall₂.cons le_rfl (ih [] (by simp))
    | cons b bs =>
      refine List.Forall₂.cons ?_ (ih bs (fun y hy => hd y (by simp [hy])))
      have : 0 ≤ b := hd b (by simp)
      omega

theorem addVec_mono {w w' : Vec} (d : Vec) (h : List.Forall₂ (· ≤ ·) w w') :
    List.Forall₂ (· ≤ ·) (addVec w d) (addVec w' d) := by
  induction h generalizing d with
  | nil => exact List.Forall₂.nil
  | cons hab htl ih =>
    cases d with
    | nil => exact List.Forall₂.cons hab (ih [])
    | cons b bs =>
      refine List.Forall₂.cons ?_ (ih bs)
      omega

theorem leAll_mono {n w w' : Vec} (h1 : leAll n w = true)
    (h : List.Forall₂ (· ≤ ·) w w') : leAll n w' = true := by
  induction h generalizing n with
  | nil => cases n <;> simp [leAll]
  | cons hab htl ih =>
    cases n with
    | nil => simp [leAll]
    | cons x xs =>
      simp only [leAll, Bool.and_eq_true, decide_eq_true_eq] at h1 ⊢
      exact ⟨by omega, ih h1.2⟩

theorem addVec_swap (w a b : Vec) : addVec (addVec w a) b = addVec (addVec w b) a := by
  induction w generalizing a b with
  | nil => simp [addVec]
  | cons x xs ih =>
    cases a with
    | nil =>
      cases b with
      | nil => rfl
      | cons y ys => simp [addVec, ih]
    | cons y ys =>
      cases b with
      | nil => simp [addVec, ih]
      | cons z zs =>
        simp only [addVec, ih, List.cons.injEq, and_true]
        omega

theorem addVec_getD (w a : Vec) (i : Nat) (h1 : i < w.length) (h2 : i < a.length) :
    (addVec w a).getD i 0 = w.getD i 0 + a.getD i 0 := by
  induction w generalizing a i with
  | nil => simp at h1
  | cons x xs ih =>
    cases a with
    | nil => simp at h2
    | cons b bs =>
      cases i with
      | zero => simp [addVec]
      | succ j =>
        simp only [addVec, List.getD_cons_succ]
        exact ih bs j (by simpa using h1) (by simpa using h2)

theorem subReq_addReq (v r : Vec) : subReq (addReq v r) r = v := by
  induction v generalizing r with
  | nil => cases r <;> simp [addReq, subReq]
  | cons x xs ih =>
    cases r with
    | nil => simp [addReq, subReq]
    | cons y ys => simp [addReq, subReq, ih]

theorem addReq_subReq (v r : Vec) : addReq (subReq v r) r = v := by
  induction v generalizing r with
  | nil => cases r <;> simp [addReq, subReq]
  | cons x xs ih =>
    cases r with
    | nil => simp [addReq, subReq]
    | cons y ys => simp [addReq, subReq, ih]

theorem anyGt_eq_true_iff (r v : Vec) (h : r.length ≤ v.length) :
    anyGt r v = true ↔ ∃ i, i < r.length ∧ v.getD i 0 < r.getD i 0 := by
  induction r generalizing v with
  | nil => simp [anyGt]
  | cons x xs ih =>
    cases v with
    | nil => simp at h
    | cons y ys =>
      simp only [anyGt, Bool.or_eq_true, decide_eq_true_eq]
      rw [ih ys (by simpa using h)]
      constructor
      · rintro (hy | ⟨i, hi, hlt⟩)
        · exact ⟨0, by simp, by simpa using hy⟩
        · exact ⟨i + 1, by simpa using hi, by simpa using hlt⟩
      · rintro ⟨i, hi, hlt⟩
        cases i with
        | zero => exact Or.inl (by simpa using hlt)
        | succ j => exact Or.inr ⟨j, by simpa using hi, by simpa using hlt⟩

theorem list_set_of_getElem {α : Type} (l : List α) (i : Nat) (a : α)
    (h : l[i]? = some a) : l.set i a = l := by
  induction l generalizing i with
  | nil => simp at h
  | cons x xs ih =>
    cases i with
    | zero => simp at h; simp [h]
    | succ j =>
      simp only [List.getElem?_cons_succ] at h
      simp [List.set, ih j h]

/-! ### Finishing-chain lemmas -/

theorem validChain_mono {w w' : Vec} {l : List Process} (hc : validChain w l = true)
    (h : List.Forall₂ (· ≤ ·) w w') : validChain w' l = true := by
  induction l generalizing w w' with
  | nil => simp [validChain]
  | cons p rest ih =>
    simp only [validChain, Bool.and_eq_true] at hc ⊢
    exact ⟨leAll_mono hc.1 h, ih hc.2 (addVec_mono _ h)⟩

theorem validChain_append {w : Vec} {l1 l2 : List Process} :
    validChain w (l1 ++ l2) = true ↔
      validChain w l1 = true ∧ validChain (chainEnd w l1) l2 = true := by
  induction l1 generalizing w with
  | nil => simp [validChain, chainEnd]
  | cons p rest ih =>
    simp [validChain, chainEnd, ih, and_assoc]

/-- A process whose need already fits can be moved to the front of a valid
finishing chain it occurs in (allocations being non-negative, the work
vector only grows along the chain). -/
theorem chain_front_move {l : List Process} {w : Vec} {p : Process}
    (hnn : ∀ q ∈ l, ∀ x ∈ q.allocated_resources, 0 ≤ x)
    (hc : validChain w l = true) (hp : p ∈ l) (hfit : leAll p.need w = true) :
    ∃ rest, List.Perm l (p :: rest) ∧
      validChain (addVec w p.allocated_resources) rest = true := by
  induction l generalizing w with
  | nil => simp at hp
  | cons q l' ih =>
    simp only [validChain, Bool.and_eq_true] at hc
    rcases List.mem_cons.mp hp with rfl | hp'
    · exact ⟨l', List.Perm.refl _, hc.2⟩
    · have hq_nn : ∀ x ∈ q.allocated_resources, 0 ≤ x := hnn q (by simp)
      have hp_nn : ∀ x ∈ p.allocated_resources, 0 ≤ x :=
        hnn p (List.mem_cons_of_mem _ hp')
      have hfit' : leAll p.need (addVec w q.allocated_resources) = true :=
        leAll_mono hfit (le_addVec w _ hq_nn)
      obtain ⟨rest', hperm', hchain'⟩ :=
        ih (fun r hr => hnn r (List.mem_cons_of_mem _ hr)) hc.2 hp' hfit'
      refine ⟨q :: rest', ?_, ?_⟩
      · exact (List.Perm.cons q hperm').trans (List.Perm.swap p q rest')
      · simp only [validChain, Bool.and_eq_true]
        refine ⟨leAll_mono hc.1 (le_addVec w _ hp_nn), ?_⟩
        rw [addVec_swap]
        exact hchain'

/-- Finishing one ready process of `rem` preserves the existence of a valid
chain for the others. -/
theorem chainFrom_step {w : Vec} {rem rest0 : List Process} {p : Process}
    (hnn : ∀ q ∈ rem, ∀ x ∈ q.allocated_resources, 0 ≤ x)
    (hcf : ChainFrom w rem) (hperm : List.Perm rem (p :: rest0))
    (hfit : leAll p.need w = true) :
    ChainFrom (addVec w p.allocated_resources) rest0 := by
  obtain ⟨l, hrl, hc⟩ := hcf
  have hpl : p ∈ l := hrl.subset (hperm.symm.subset (List.mem_cons_self p rest0))
  have hnn_l : ∀ q ∈ l, ∀ x ∈ q.allocated_resources, 0 ≤ x :=
    fun q hq => hnn q (hrl.symm.subset hq)
  obtain ⟨rest, hlp, hchain⟩ := chain_front_move hnn_l hc hpl hfit
  refine ⟨rest, ?_, hchain⟩
  exact (hperm.symm.trans (hrl.trans hlp)).cons_inv

/-- Running a whole valid chain `c` of ready processes preserves the
existence of a valid chain for the remainder. -/
theorem chainFrom_consume {c : List Process} :
    ∀ {w : Vec} {rem rest : List Process},
    (∀ q ∈ rem, ∀ x ∈ q.allocated_resources, 0 ≤ x) →
    ChainFrom w rem → List.Perm rem (c ++ rest) → validChain w c = true →
    ChainFrom (chainEnd w c) rest := by
  induction c with
  | nil =>
    intro w rem rest hnn hcf hperm _
    obtain ⟨l, hrl, hc⟩ := hcf
    exact ⟨l, hperm.symm.trans hrl, hc⟩
  | cons p c' ih =>
    intro w rem rest hnn hcf hperm hc
    simp only [validChain, Bool.and_eq_true] at hc
    have hperm' : List.Perm rem (p :: (c' ++ rest)) := by simpa using hperm
    have hstep := chainFrom_step hnn hcf hperm' hc.1
    have hnn' : ∀ q ∈ c' ++ rest, ∀ x ∈ q.allocated_resources, 0 ≤ x :=
      fun q hq => hnn q (hperm'.symm.subset (List.mem_cons_of_mem _ hq))
    exact ih hnn' hstep (List.Perm.refl _) hc.2

/-! ### Finish-mask bookkeeping -/

theorem unfinished_subset {ps : List Process} {fs : List Bool} {p : Process}
    (h : p ∈ unfinished ps fs) : p ∈ ps := by
  induction ps generalizing fs with
  | nil => simp [unfinished] at h
  | cons q ps' ih =>
    cases fs with
    | nil => simp [unfinished] at h
    | cons f fs' =>
      simp only [unfinished] at h
      by_cases hf : f
      · simp only [hf, if_true] at h
        exact List.mem_cons_of_mem _ (ih h)
      · simp only [hf, if_false] at h
        rcases List.mem_cons.mp h with rfl | h'
        · exact List.mem_cons_self _ _
        · exact List.mem_cons_of_mem _ (ih h')

theorem unfinished_length {ps : List Process} {fs : List Bool}
    (h : fs.length = ps.length) : (unfinished ps fs).length = countFalse fs := by
  induction ps generalizing fs with
  | nil =>
    cases fs with
    | nil => simp [unfinished, countFalse]
    | cons f fs' => simp at h
  | cons q ps' ih =>
    cases fs with
    | nil => simp at h
    | cons f fs' =>
      have hlen : fs'.length = ps'.length := by simpa using h
      by_cases hf : f <;> simp [unfinished, countFalse, hf, ih hlen, Nat.add_comm]

theorem unfinished_nil_of_all {ps : List Process} {fs : List Bool}
    (h : fs.all (fun b => b) = true) : unfinished ps fs = [] := by
  induction ps generalizing fs with
  | nil => simp [unfinished]
  | cons q ps' ih =>
    cases fs with
    | nil => simp [unfinished]
    | cons f fs' =>
      simp only [List.all_cons, Bool.and_eq_true] at h
      simp [unfinished, h.1, ih h.2]

theorem all_of_unfinished_nil {ps : List Process} {fs : List Bool}
    (hlen : fs.length = ps.length) (h : unfinished ps fs = []) :
    fs.all (fun b => b) = true := by
  induction ps generalizing fs with
  | nil =>
    cases fs with
    | nil => simp
    | cons f fs' => simp at hlen
  | cons q ps' ih =>
    cases fs with
    | nil => simp at hlen
    | cons f fs' =>
      have hlen' : fs'.length = ps'.length := by simpa using hlen
      by_cases hf : f
      · simp only [unfinished, hf, if_true] at h
        simp [hf, ih hlen' h]
      · simp [unfinished, hf] at h

theorem countFalse_replicate (n : Nat) : countFalse (List.replicate n false) = n := by
  induction n with
  | zero => simp [countFalse]
  | succ m ih => simp [List.replicate, countFalse, ih, Nat.add_comm]

theorem unfinished_replicate (ps : List Process) :
    unfinished ps (List.replicate ps.length false) = ps := by
  induction ps with
  | nil => simp [unfinished]
  | cons q ps' ih => simp [List.replicate, unfinished, ih]

/-! ### One pass of the collect-all safety scan -/

/-- Structure of one `safePass`: the processes marked during the pass form a
valid finishing chain `c` from the incoming work vector, the outgoing work
vector is the chain's end, and the unfinished multiset splits into `c` plus
the still-unfinished rest. -/
theorem safePass_spec : ∀ (ps : List Process) (fs : List Bool) (work w2 : Vec)
    (fs2 : List Bool) (found : Bool),
    safePass ps fs work = (w2, fs2, found) →
    ∃ c : List Process,
      validChain work c = true ∧
      List.Perm (unfinished ps fs) (c ++ unfinished ps fs2) ∧
      w2 = chainEnd work c ∧
      (found = true → c ≠ []) := by
  intro ps
  induction ps with
  | nil =>
    intro fs work w2 fs2 found h
    simp only [safePass, Prod.mk.injEq] at h
    obtain ⟨rfl, rfl, rfl⟩ := h
    exact ⟨[], rfl, by simp [unfinished], rfl, by simp⟩
  | cons p ps' ih =>
    intro fs work w2 fs2 found h
    cases fs with
    | nil =>
      simp only [safePass, Prod.mk.injEq] at h
      obtain ⟨rfl, rfl, rfl⟩ := h
      exact ⟨[], rfl, by simp [unfinished], rfl, by simp⟩
    | cons f fs' =>
      simp only [safePass] at h
      by_cases hcond : (!f && leAll p.need work) = true
      · rw [if_pos hcond] at h
        have hf : f = false := by
          rcases Bool.and_eq_true _ _ |>.mp hcond with ⟨hf1, _⟩
          simpa using hf1
        have hfit : leAll p.need work = true :=
          (Bool.and_eq_true _ _ |>.mp hcond).2
        rcases hsp : safePass ps' fs' (addVec work p.allocated_resources) with
          ⟨w3, fs3, fnd3⟩
        rw [hsp] at h
        simp only [Prod.mk.injEq] at h
        obtain ⟨rfl, rfl, rfl⟩ := h
        obtain ⟨c3, hc3, hperm3, hend3, _⟩ := ih fs' _ _ _ _ hsp
        refine ⟨p :: c3, ?_, ?_, ?_, by simp⟩
        · simp [validChain, hfit, hc3]
        · simpa [unfinished, hf] using List.Perm.cons p hperm3
        · simpa [chainEnd] using hend3
      · rw [if_neg hcond] at h
        rcases hsp : safePass ps' fs' work with ⟨w3, fs3, fnd3⟩
        rw [hsp] at h
        simp only [Prod.mk.injEq] at h
        obtain ⟨rfl, rfl, rfl⟩ := h
        obtain ⟨c3, hc3, hperm3, hend3, hne3⟩ := ih fs' _ _ _ _ hsp
        refine ⟨c3, hc3, ?_, hend3, hne3⟩
        by_cases hf : f
        · simpa [unfinished, hf] using hperm3
        · simp only [unfinished, hf, if_false]
          exact (List.Perm.cons p hperm3).trans List.perm_middle.symm

/-- The finish mask keeps its length through a pass. -/
theorem safePass_length : ∀ (ps : List Process) (fs : List Bool) (work w2 : Vec)
    (fs2 : List Bool) (found : Bool),
    fs.length = ps.length → safePass ps fs work = (w2, fs2, found) →
    fs2.length = fs.length := by
  intro ps
  induction ps with
  | nil =>
    intro fs work w2 fs2 found hlen h
    cases fs with
    | nil =>
      simp only [safePass, Prod.mk.injEq] at h
      obtain ⟨-, rfl, -⟩ := h
      rfl
    | cons f fs' => simp at hlen
  | cons p ps' ih =>
    intro fs work w2 fs2 found hlen h
    cases fs with
    | nil => simp at hlen
    | cons f fs' =>
      have hlen' : fs'.length = ps'.length := by simpa using hlen
      simp only [safePass] at h
      by_cases hcond : (!f && leAll p.need work) = true
      · rw [if_pos hcond] at h
        rcases hsp : safePass ps' fs' (addVec work p.allocated_resources) with
          ⟨w3, fs3, fnd3⟩
        rw [hsp] at h
        simp only [Prod.mk.injEq] at h
        obtain ⟨-, rfl, -⟩ := h
        simp [ih fs' _ _ _ _ hlen' hsp]
      · rw [if_neg hcond] at h
        rcases hsp : safePass ps' fs' work with ⟨w3, fs3, fnd3⟩
        rw [hsp] at h
        simp only [Prod.mk.injEq] at h
        obtain ⟨-, rfl, -⟩ := h
        simp [ih fs' _ _ _ _ hlen' hsp]

/-- An unproductive pass certifies that no unfinished process fits the
(unchanged) work vector. -/
theorem safePass_stuck : ∀ (ps : List Process) (fs : List Bool) (work w2 : Vec)
    (fs2 : List Bool), safePass ps fs work = (w2, fs2, false) →
    ∀ p ∈ unfinished ps fs, leAll p.need work = false := by
  intro ps
  induction ps with
  | nil =>
    intro fs work w2 fs2 _ p hp
    simp [unfinished] at hp
  | cons q ps' ih =>
    intro fs work w2 fs2 h p hp
    cases fs with
    | nil => simp [unfinished] at hp
    | cons f fs' =>
      simp only [safePass] at h
      by_cases hcond : (!f && leAll q.need work) = true
      · rw [if_pos hcond] at h
        rcases hsp : safePass ps' fs' (addVec work q.allocated_resources) with
          ⟨w3, fs3, fnd3⟩
        rw [hsp] at h
        simp at h
      · rw [if_neg hcond] at h
        rcases hsp : safePass ps' fs' work with ⟨w3, fs3, fnd3⟩
        rw [hsp] at h
        simp only [Prod.mk.injEq] at h
        obtain ⟨-, -, rfl⟩ := h
        by_cases hf : f
        · simp only [unfinished, hf, if_true] at hp
          exact ih fs' _ _ _ hsp p hp
        · simp only [unfinished, hf, if_false] at hp
          rcases List.mem_cons.mp hp with rfl | hp'
          · simpa [hf] using hcond
          · exact ih fs' _ _ _ hsp p hp'

/-- A productive pass strictly decreases the number of unfinished
processes. -/
theorem safePass_countFalse_lt {ps : List Process} {fs : List Bool}
    {work w2 : Vec} {fs2 : List Bool} (hlen : fs.length = ps.length)
    (h : safePass ps fs work = (w2, fs2, true)) :
    countFalse fs2 < countFalse fs ∧ fs2.length = ps.length := by
  obtain ⟨c, -, hperm, -, hne⟩ := safePass_spec ps fs work w2 fs2 true h
  have hlen2 : fs2.length = fs.length := safePass_length ps fs work w2 fs2 true hlen h
  have h1 : (unfinished ps fs).length = countFalse fs := unfinished_length hlen
  have h2 : (unfinished ps fs2).length = countFalse fs2 :=
    unfinished_length (hlen2.trans hlen)
  have h3 := hperm.length_eq
  have hc : c ≠ [] := hne rfl
  have hcpos : 0 < c.length := List.length_pos.mpr hc
  rw [h1] at h3
  simp only [List.length_append, h2] at h3
  exact ⟨by omega, hlen2.trans hlen⟩

/-! ### The outer safety loop -/

/-- Fuel adequacy: `processes.length + 1` rounds of fuel reach the loop's fixpoint: any
extra fuel returns the same finish mask, so the fuelled `safeLoop` is the
source's `while True` loop. -/
theorem safeLoop_fuel_stable : ∀ (fuel : Nat) (ps : List Process) (work : Vec)
    (fs : List Bool), fs.length = ps.length → countFalse fs < fuel →
    safeLoop fuel ps work fs = safeLoop (fuel + 1) ps work fs := by
  intro fuel
  induction fuel with
  | zero =>
    intro ps work fs _ h
    exact absurd h (Nat.not_lt_zero _)
  | succ n ih =>
    intro ps work fs hlen hcf
    simp only [safeLoop]
    rcases hsp : safePass ps fs work with ⟨w2, fs2, found⟩
    simp only [hsp]
    cases found with
    | false => simp
    | true =>
      obtain ⟨hlt, hlen2⟩ := safePass_countFalse_lt hlen hsp
      simpa using ih ps w2 fs2 hlen2 (by omega)

/-- Completeness of the collect-all greedy loop: if some ordering of the
unfinished processes is a valid finishing chain, the loop marks everything
finished. -/
theorem safeLoop_complete : ∀ (fuel : Nat) (ps : List Process) (work : Vec)
    (fs : List Bool), fs.length = ps.length → countFalse fs < fuel →
    allocNonneg ps → ChainFrom work (unfinished ps fs) →
    (safeLoop fuel ps work fs).all (fun b => b) = true := by
  intro fuel
  induction fuel with
  | zero =>
    intro ps work fs _ h
    exact absurd h (Nat.not_lt_zero _)
  | succ n ih =>
    intro ps work fs hlen hcf hnn hchain
    simp only [safeLoop]
    rcases hsp : safePass ps fs work with ⟨w2, fs2, found⟩
    simp only [hsp]
    cases found with
    | false =>
      simp only [Bool.false_eq_true, if_false]
      by_cases hU : unfinished ps fs = []
      · exact all_of_unfinished_nil hlen hU
      · exfalso
        obtain ⟨l, hperm, hvc⟩ := hchain
        cases l with
        | nil => exact hU hperm.eq_nil
        | cons p rest =>
          have hfit : leAll p.need work = true := by
            simp only [validChain, Bool.and_eq_true] at hvc
            exact hvc.1
          have hpU : p ∈ unfinished ps fs :=
            hperm.symm.subset (List.mem_cons_self p rest)
          have hstuck := safePass_stuck ps fs work w2 fs2 hsp p hpU
          rw [hfit] at hstuck
          simp at hstuck
    | true =>
      simp only [if_true]
      obtain ⟨c, hvc, hperm, hend, -⟩ := safePass_spec ps fs work w2 fs2 true hsp
      obtain ⟨hlt, hlen2⟩ := safePass_countFalse_lt hlen hsp
      have hnnU : ∀ q ∈ unfinished ps fs, ∀ x ∈ q.allocated_resources, 0 ≤ x :=
        fun q hq => hnn q (unfinished_subset hq)
      have hch2 : ChainFrom w2 (unfinished ps fs2) := by
        rw [hend]
        exact chainFrom_consume hnnU hchain hperm hvc
      exact ih ps w2 fs2 hlen2 (by omega) hnn hch2

/-- Soundness of the collect-all greedy loop: an all-finished verdict yields
a valid finishing chain consisting of the previously unfinished processes. -/
theorem safeLoop_sound : ∀ (fuel : Nat) (ps : List Process) (work : Vec)
    (fs : List Bool),
    (safeLoop fuel ps work fs).all (fun b => b) = true →
    ∃ c, validChain work c = true ∧ List.Perm (unfinished ps fs) c := by
  intro fuel
  induction fuel with
  | zero =>
    intro ps work fs h
    have h0 : fs.all (fun b => b) = true := by simpa [safeLoop] using h
    exact ⟨[], rfl, by simp [unfinished_nil_of_all h0]⟩
  | succ n ih =>
    intro ps work fs h
    simp only [safeLoop] at h
    rcases hsp : safePass ps fs work with ⟨w2, fs2, found⟩
    rw [hsp] at h
    cases found with
    | false =>
      simp only [Bool.false_eq_true, if_false] at h
      exact ⟨[], rfl, by simp [unfinished_nil_of_all h]⟩
    | true =>
      simp only [if_true] at h
      obtain ⟨c2, hvc2, hperm2⟩ := ih ps w2 fs2 h
      obtain ⟨c1, hvc1, hperm1, hend, -⟩ := safePass_spec ps fs work w2 fs2 true hsp
      refine ⟨c1 ++ c2, ?_, ?_⟩
      · refine validChain_append.mpr ⟨hvc1, ?_⟩
        rw [← hend]
        exact hvc2
      · exact hperm1.trans (List.Perm.append_left c1 hperm2)

/-- A `true` verdict of `is_safe_state` certifies a valid finishing chain. -/
theorem is_safe_state_sound {ps : List Process} {avail : Vec}
    (h : is_safe_state ps avail = true) : SafeExists ps avail := by
  obtain ⟨c, hvc, hperm⟩ := safeLoop_sound _ ps avail _ h
  rw [unfinished_replicate] at hperm
  exact ⟨c, hperm, hvc⟩

/-- If a valid finishing chain exists (allocations non-negative, as in the
data model), `is_safe_state` returns `true`. -/
theorem is_safe_state_complete {ps : List Process} {avail : Vec}
    (hnn : allocNonneg ps) (h : SafeExists ps avail) :
    is_safe_state ps avail = true := by
  apply safeLoop_complete _ ps avail _ (by simp)
    (by rw [countFalse_replicate]; omega) hnn
  rw [unfinished_replicate]
  exact h

/-! ### One pass of the first-fit sequence scan -/

/-- A `None` inner scan certifies that no unfinished process fits. -/
theorem seqPass_none : ∀ (ps : List Process) (fs : List Bool) (work : Vec),
    seqPass ps fs work = none →
    ∀ p ∈ unfinished ps fs, leAll p.need work = false := by
  intro ps
  induction ps with
  | nil =>
    intro fs work _ p hp
    simp [unfinished] at hp
  | cons q ps' ih =>
    intro fs work h p hp
    cases fs with
    | nil => simp [unfinished] at hp
    | cons f fs' =>
      simp only [seqPass] at h
      by_cases hcond : (!f && leAll q.need work) = true
      · rw [if_pos hcond] at h
        exact absurd h (by simp)
      · rw [if_neg hcond] at h
        cases hsp : seqPass ps' fs' work with
        | none =>
          by_cases hf : f
          · simp only [unfinished, hf, if_true] at hp
            exact ih fs' work hsp p hp
          · simp only [unfinished, hf, if_false] at hp
            rcases List.mem_cons.mp hp with rfl | hp'
            · simpa [hf] using hcond
            · exact ih fs' work hsp p hp'
        | some r =>
          rw [hsp] at h
          obtain ⟨w3, fs3, i3⟩ := r
          simp at h

/-- Structure of a successful inner scan: exactly one fitting unfinished
process is marked; its allocation is folded into the work vector and its id
is returned. -/
theorem seqPass_spec : ∀ (ps : List Process) (fs : List Bool) (work w2 : Vec)
    (fs2 : List Bool) (i : Nat),
    seqPass ps fs work = some (w2, fs2, i) →
    ∃ p : Process, leAll p.need work = true ∧
      w2 = addVec work p.allocated_resources ∧ i = p.id ∧
      (fs.length = ps.length → fs2.length = fs.length) ∧
      List.Perm (unfinished ps fs) (p :: unfinished ps fs2) := by
  intro ps
  induction ps with
  | nil =>
    intro fs work w2 fs2 i h
    simp [seqPass] at h
  | cons q ps' ih =>
    intro fs work w2 fs2 i h
    cases fs with
    | nil => simp [seqPass] at h
    | cons f fs' =>
      simp only [seqPass] at h
      by_cases hcond : (!f && leAll q.need work) = true
      · rw [if_pos hcond] at h
        have hf : f = false := by
          rcases Bool.and_eq_true _ _ |>.mp hcond with ⟨hf1, -⟩
          simpa using hf1
        have hfit : leAll q.need work = true :=
          (Bool.and_eq_true _ _ |>.mp hcond).2
        simp only [Option.some.injEq, Prod.mk.injEq] at h
        obtain ⟨rfl, rfl, rfl⟩ := h
        refine ⟨q, hfit, rfl, rfl, by simp, ?_⟩
        simp [unfinished, hf]
      · rw [if_neg hcond] at h
        cases hsp : seqPass ps' fs' work with
        | none =>
          rw [hsp] at h
          simp at h
        | some r =>
          rw [hsp] at h
          obtain ⟨w3, fs3, i3⟩ := r
          simp only [Option.some.injEq, Prod.mk.injEq] at h
          obtain ⟨rfl, rfl, rfl⟩ := h
          obtain ⟨p, hfit, hw, hid, hlen, hperm⟩ := ih fs' work _ _ _ hsp
          refine ⟨p, hfit, hw, hid, ?_, ?_⟩
          · intro hl
            have : fs'.length = ps'.length := by simpa using hl
            simp [hlen this]
          · by_cases hf : f
            · simpa [unfinished, hf] using hperm
            · simp only [unfinished, hf, if_false]
              exact (List.Perm.cons q hperm).trans (List.Perm.swap p q _)

/-- Bookkeeping for a successful inner scan: one fewer unfinished process. -/
theorem seqPass_countFalse {ps : List Process} {fs : List Bool}
    {work w2 : Vec} {fs2 : List Bool} {i : Nat} (hlen : fs.length = ps.length)
    (h : seqPass ps fs work = some (w2, fs2, i)) :
    countFalse fs = countFalse fs2 + 1 ∧ fs2.length = ps.length := by
  obtain ⟨p, -, -, -, hlen2, hperm⟩ := seqPass_spec ps fs work w2 fs2 i h
  have hlen2' : fs2.length = fs.length := hlen2 hlen
  have h1 := unfinished_length hlen
  have h2 : (unfinished ps fs2).length = countFalse fs2 :=
    unfinished_length (hlen2'.trans hlen)
  have h3 := hperm.length_eq
  rw [h1] at h3
  simp only [List.length_cons, h2] at h3
  exact ⟨by omega, hlen2'.trans hlen⟩

/-! ### The outer sequence loop -/

/-- Completeness of the first-fit loop: if a valid finishing chain exists
for the unfinished processes, `seqLoop` returns a sequence. -/
theorem seqLoop_complete : ∀ (fuel : Nat) (ps : List Process) (work : Vec)
    (fs : List Bool) (seq : List Nat),
    fs.length = ps.length → countFalse fs ≤ fuel →
    seq.length + countFalse fs = ps.length → allocNonneg ps →
    ChainFrom work (unfinished ps fs) →
    ∃ s, seqLoop fuel ps work fs seq = some s := by
  intro fuel
  induction fuel with
  | zero =>
    intro ps work fs seq hlen hcf hinv hnn hch
    simp only [seqLoop]
    rw [if_neg (by omega)]
    exact ⟨seq, rfl⟩
  | succ n ih =>
    intro ps work fs seq hlen hcf hinv hnn hch
    simp only [seqLoop]
    by_cases hguard : seq.length < ps.length
    · rw [if_pos hguard]
      cases hsp : seqPass ps fs work with
      | none =>
        exfalso
        obtain ⟨l, hperm, hvc⟩ := hch
        cases l with
        | nil =>
          have hU : unfinished ps fs = [] := hperm.eq_nil
          have hcnt := unfinished_length hlen
          rw [hU] at hcnt
          simp at hcnt
          omega
        | cons p rest =>
          have hfit : leAll p.need work = true := by
            simp only [validChain, Bool.and_eq_true] at hvc
            exact hvc.1
          have hpU : p ∈ unfinished ps fs :=
            hperm.symm.subset (List.mem_cons_self p rest)
          have hstuck := seqPass_none ps fs work hsp p hpU
          rw [hfit] at hstuck
          simp at hstuck
      | some r =>
        obtain ⟨w2, fs2, i⟩ := r
        obtain ⟨p, hfit, hw2, -, -, hperm⟩ := seqPass_spec ps fs work w2 fs2 i hsp
        obtain ⟨hcnt, hlen2⟩ := seqPass_countFalse hlen hsp
        have hnnU : ∀ q ∈ unfinished ps fs, ∀ x ∈ q.allocated_resources, 0 ≤ x :=
          fun q hq => hnn q (unfinished_subset hq)
        have hch2 : ChainFrom w2 (unfinished ps fs2) := by
          rw [hw2]
          exact chainFrom_step hnnU hch hperm hfit
        exact ih ps w2 fs2 (seq ++ [i]) hlen2 (by omega)
          (by simp only [List.length_append, List.length_cons, List.length_nil]; omega)
          hnn hch2
    · rw [if_neg hguard]
      exact ⟨seq, rfl⟩

/-- Soundness of the first-fit loop: a returned sequence yields a valid
finishing chain of the unfinished processes. -/
theorem seqLoop_sound : ∀ (fuel : Nat) (ps : List Process) (work : Vec)
    (fs : List Bool) (seq : List Nat) (s : List Nat),
    fs.length = ps.length → seq.length + countFalse fs = ps.length →
    seqLoop fuel ps work fs seq = some s →
    ∃ c, validChain work c = true ∧ List.Perm (unfinished ps fs) c := by
  intro fuel
  induction fuel with
  | zero =>
    intro ps work fs seq s hlen hinv h
    simp only [seqLoop] at h
    by_cases hguard : seq.length < ps.length
    · rw [if_pos hguard] at h
      exact absurd h (by simp)
    · have hcf : countFalse fs = 0 := by omega
      have hU : unfinished ps fs = [] := by
        have hcnt := unfinished_length hlen
        rw [hcf] at hcnt
        exact List.length_eq_zero.mp hcnt
      exact ⟨[], rfl, by simp [hU]⟩
  | succ n ih =>
    intro ps work fs seq s hlen hinv h
    simp only [seqLoop] at h
    by_cases hguard : seq.length < ps.length
    · rw [if_pos hguard] at h
      cases hsp : seqPass ps fs work with
      | none =>
        rw [hsp] at h
        exact absurd h (by simp)
      | some r =>
        obtain ⟨w2, fs2, i⟩ := r
        rw [hsp] at h
        obtain ⟨p, hfit, hw2, -, -, hperm⟩ := seqPass_spec ps fs work w2 fs2 i hsp
        obtain ⟨hcnt, hlen2⟩ := seqPass_countFalse hlen hsp
        obtain ⟨c2, hvc2, hperm2⟩ := ih ps w2 fs2 (seq ++ [i]) s hlen2
          (by simp only [List.length_append, List.length_cons, List.length_nil]; omega) h
        refine ⟨p :: c2, ?_, ?_⟩
        · simp only [validChain, Bool.and_eq_true]
          refine ⟨hfit, ?_⟩
          rw [← hw2]
          exact hvc2
        · exact hperm.trans (List.Perm.cons p hperm2)
    · have hcf : countFalse fs = 0 := by omega
      have hU : unfinished ps fs = [] := by
        have hcnt := unfinished_length hlen
        rw [hcf] at hcnt
        exact List.length_eq_zero.mp hcnt
      exact ⟨[], rfl, by simp [hU]⟩

/-- A returned safe sequence certifies a valid finishing chain. -/
theorem get_safe_sequence_sound {ps : List Process} {avail : Vec} {s : List Nat}
    (h : get_safe_sequence ps avail = some s) : SafeExists ps avail := by
  simp only [get_safe_sequence] at h
  obtain ⟨c, hvc, hperm⟩ := seqLoop_sound ps.length ps avail _ [] s (by simp)
    (by simp [countFalse_replicate]) h
  rw [unfinished_replicate] at hperm
  exact ⟨c, hperm, hvc⟩

/-- If a valid finishing chain exists (allocations non-negative),
`get_safe_sequence` returns a sequence. -/
theorem get_safe_sequence_complete {ps : List Process} {avail : Vec}
    (hnn : allocNonneg ps) (h : SafeExists ps avail) :
    ∃ s, get_safe_sequence ps avail = some s := by
  simp only [get_safe_sequence]
  exact seqLoop_complete ps.length ps avail _ [] (by simp)
    (by simp [countFalse_replicate]) (by simp [countFalse_replicate]) hnn
    (by rw [unfinished_replicate]; exact h)

/-! ### Case analysis of `request_resources` -/

/-- First check fails: denial, untouched state. -/
theorem request_eq_of_exceeds {s : SysState} {idx : Nat} {request : Vec}
    {p : Process} (hp : s.processes[idx]? = some p)
    (h1 : anyGt request p.need = true) :
    request_resources s idx request = ((false, "Request exceeds maximum claim"), s) := by
  simp only [request_resources, hp]
  rw [if_pos h1]

/-- Second check fails (first passed): denial, untouched state. -/
theorem request_eq_of_unavailable {s : SysState} {idx : Nat} {request : Vec}
    {p : Process} (hp : s.processes[idx]? = some p)
    (h1 : anyGt request p.need = false)
    (h2 : anyGt request s.resources.available_resources = true) :
    request_resources s idx request = ((false, "Resources not available"), s) := by
  simp only [request_resources, hp]
  rw [if_neg (by simp [h1]), if_pos h2]

/-- Both checks pass and the speculative state is safe: grant, mutation kept. -/
theorem request_eq_of_safe {s : SysState} {idx : Nat} {request : Vec}
    {p : Process} (hp : s.processes[idx]? = some p)
    (h1 : anyGt request p.need = false)
    (h2 : anyGt request s.resources.available_resources = false)
    (h3 : is_safe_state
        (s.processes.set idx
          { p with allocated_resources := addReq p.allocated_resources request
                   need := subReq p.need request })
        (subReq s.resources.available_resources request) = true) :
    request_resources s idx request =
      ((true, "Request granted"),
       { processes := s.processes.set idx
           { p with allocated_resources := addReq p.allocated_resources request
                    need := subReq p.need request }
         resources := { s.resources with
           available_resources := subReq s.resources.available_resources request } }) := by
  simp only [request_resources, hp]
  rw [if_neg (by simp [h1]), if_neg (by simp [h2]), if_pos h3]

/-- Both checks pass but the speculative state is unsafe: the rollback is the
exact arithmetic inverse of the apply step, so the returned state is the
original one. -/
theorem request_eq_of_rollback {s : SysState} {idx : Nat} {request : Vec}
    {p : Process} (hp : s.processes[idx]? = some p)
    (h1 : anyGt request p.need = false)
    (h2 : anyGt request s.resources.available_resources = false)
    (h3 : is_safe_state
        (s.processes.set idx
          { p with allocated_resources := addReq p.allocated_resources request
                   need := subReq p.need request })
        (subReq s.resources.available_resources request) = false) :
    request_resources s idx request = ((false, "Unsafe state"), s) := by
  simp only [request_resources, hp]
  rw [if_neg (by simp [h1]), if_neg (by simp [h2]), if_neg (by simp [h3])]
  simp only [addReq_subReq, subReq_addReq, List.set_set]
  have hrestore :
      ({ id := p.id, max_resources := p.max_resources
         allocated_resources := p.allocated_resources, need := p.need } : Process) = p := rfl
  rw [hrestore, list_set_of_getElem _ _ _ hp]

/-- Any denial (any reason, including the modelled invalid-index case)
returns the caller's state unchanged. -/
theorem request_denied_eq : ∀ (s : SysState) (idx : Nat) (request : Vec)
    (m : String) (s2 : SysState),
    request_resources s idx request = ((false, m), s2) → s2 = s := by
  intro s idx request m s2 h
  cases hp : s.processes[idx]? with
  | none =>
    simp only [request_resources, hp, Prod.mk.injEq] at h
    exact h.2.symm
  | some p =>
    by_cases h1 : anyGt request p.need = true
    · rw [request_eq_of_exceeds hp h1] at h
      simp only [Prod.mk.injEq] at h
      exact h.2.symm
    · have h1' : anyGt request p.need = false := by simpa using h1
      by_cases h2 : anyGt request s.resources.available_resources = true
      · rw [request_eq_of_unavailable hp h1' h2] at h
        simp only [Prod.mk.injEq] at h
        exact h.2.symm
      · have h2' : anyGt request s.resources.available_resources = false := by
          simpa using h2
        by_cases h3 : is_safe_state
            (s.processes.set idx
              { p with allocated_resources := addReq p.allocated_resources request
                       need := subReq p.need request })
            (subReq s.resources.available_resources request) = true
        · rw [request_eq_of_safe hp h1' h2' h3] at h
          simp at h
        · have h3' : is_safe_state
              (s.processes.set idx
                { p with allocated_resources := addReq p.allocated_resources request
                         need := subReq p.need request })
              (subReq s.resources.available_resources request) = false := by
            simpa using h3
          rw [request_eq_of_rollback hp h1' h2' h3'] at h
          simp only [Prod.mk.injEq] at h
          exact h.2.symm

/-! ### Claim theorems: the request path -/

/-- Claim C1: whenever `request_resources` returns `granted = true`, the state
at return satisfies `is_safe_state(processes, available_resources)`; hence
along any sequence of granted requests, the state after each grant is safe. -/
theorem grant_preserves_safety : ∀ (s : SysState) (idx : Nat) (request : Vec)
    (m : String) (s2 : SysState),
    request_resources s idx request = ((true, m), s2) →
    is_safe_state s2.processes s2.resources.available_resources = true := by
  intro s idx request m s2 h
  cases hp : s.processes[idx]? with
  | none =>
    simp only [request_resources, hp, Prod.mk.injEq] at h
    exact absurd h.1.1 (by simp)
  | some p =>
    by_cases h1 : anyGt request p.need = true
    · rw [request_eq_of_exceeds hp h1] at h
      simp at h
    · have h1' : anyGt request p.need = false := by simpa using h1
      by_cases h2 : anyGt request s.resources.available_resources = true
      · rw [request_eq_of_unavailable hp h1' h2] at h
        simp at h
      · have h2' : anyGt request s.resources.available_resources = false := by
          simpa using h2
        by_cases h3 : is_safe_state
            (s.processes.set idx
              { p with allocated_resources := addReq p.allocated_resources request
                       need := subReq p.need request })
            (subReq s.resources.available_resources request) = true
        · rw [request_eq_of_safe hp h1' h2' h3] at h
          simp only [Prod.mk.injEq] at h
          obtain ⟨-, hs2⟩ := h
          rw [← hs2]
          exact h3
        · have h3' : is_safe_state
              (s.processes.set idx
                { p with allocated_resources := addReq p.allocated_resources request
                         need := subReq p.need request })
              (subReq s.resources.available_resources request) = false := by
            simpa using h3
          rw [request_eq_of_rollback hp h1' h2' h3'] at h
          simp at h

/-- Witness for C1: the concrete grant `request_resources(processes[0],
[0, 2, 0])` from the `__main__` state leaves a state that `is_safe_state`
accepts. -/
theorem grant_preserves_safety_witness :
    is_safe_state ((request_resources mainState 0 [0, 2, 0]).2).processes
      ((request_resources mainState 0 [0, 2, 0]).2).resources.available_resources
      = true :=
  grant_preserves_safety mainState 0 [0, 2, 0] "Request granted"
    (request_resources mainState 0 [0, 2, 0]).2 (by decide)

/-- Claim C3: every call of `request_resources` that returns `granted = false`
(any denial reason) leaves the requesting claimant's `allocated` and `need`
vectors and the pool's `available` vector componentwise equal to their
pre-call values - the returned state is the pre-call state, so a denial is
externally indistinguishable from a no-op. -/
theorem denied_request_is_noop : ∀ (s : SysState) (idx : Nat) (request : Vec)
    (m : String) (s2 : SysState),
    request_resources s idx request = ((false, m), s2) → s2 = s :=
  request_denied_eq

/-- Witness for C3: the denial of `[1]` in `tightState` (which takes the
unsafe-state rollback path) returns the untouched state. -/
theorem denied_request_is_noop_witness :
    (request_resources tightState 0 [1]).2 = tightState :=
  denied_request_is_noop tightState 0 [1] "Unsafe state"
    (request_resources tightState 0 [1]).2 (by decide)

/-- Claim C10: for every call of `request_resources`, granted or denied, the
pool's `total_resources`, the requester's `id` and `max_resources`, and every
claimant other than the requester are left unchanged; and on a denial the
whole state is unchanged, so only the requester's `allocated`/`need` and the
pool's `available` can change, and only on a grant. -/
theorem request_frame_conditions : ∀ (s : SysState) (idx : Nat) (request : Vec),
    ((request_resources s idx request).2.resources.total_resources
        = s.resources.total_resources) ∧
    (∀ j, j ≠ idx → (request_resources s idx request).2.processes[j]?
        = s.processes[j]?) ∧
    (((request_resources s idx request).2.processes[idx]?).map Process.id
        = (s.processes[idx]?).map Process.id) ∧
    (((request_resources s idx request).2.processes[idx]?).map Process.max_resources
        = (s.processes[idx]?).map Process.max_resources) ∧
    ((request_resources s idx request).1.1 = false →
        (request_resources s idx request).2 = s) := by
  intro s idx request
  cases hp : s.processes[idx]? with
  | none => simp [request_resources, hp]
  | some p =>
    by_cases h1 : anyGt request p.need = true
    · rw [request_eq_of_exceeds hp h1]
      exact ⟨rfl, fun j _ => rfl, by simp [hp], by simp [hp], fun _ => rfl⟩
    · have h1' : anyGt request p.need = false := by simpa using h1
      by_cases h2 : anyGt request s.resources.available_resources = true
      · rw [request_eq_of_unavailable hp h1' h2]
        exact ⟨rfl, fun j _ => rfl, by simp [hp], by simp [hp], fun _ => rfl⟩
      · have h2' : anyGt request s.resources.available_resources = false := by
          simpa using h2
        by_cases h3 : is_safe_state
            (s.processes.set idx
              { p with allocated_resources := addReq p.allocated_resources request
                       need := subReq p.need request })
            (subReq s.resources.available_resources request) = true
        · rw [request_eq_of_safe hp h1' h2' h3]
          have hlt : idx < s.processes.length := (List.getElem?_eq_some.mp hp).1
          refine ⟨rfl, ?_, ?_, ?_, ?_⟩
          · intro j hj
            exact List.getElem?_set_ne (Ne.symm hj)
          · rw [List.getElem?_set_self hlt]
            rfl
          · rw [List.getElem?_set_self hlt]
            rfl
          · intro hfalse
            simp at hfalse
        · have h3' : is_safe_state
              (s.processes.set idx
                { p with allocated_resources := addReq p.allocated_resources request
                         need := subReq p.need request })
              (subReq s.resources.available_resources request) = false := by
            simpa using h3
          rw [request_eq_of_rollback hp h1' h2' h3']
          exact ⟨rfl, fun j _ => rfl, by simp [hp], by simp [hp], fun _ => rfl⟩

/-- Witness for C10, instantiated at the `__main__` state's first request:
claimant 1 is untouched by claimant 0's granted request. -/
theorem request_frame_conditions_witness :
    (request_resources mainState 0 [0, 2, 0]).2.processes[1]?
      = mainState.processes[1]? :=
  (request_frame_conditions mainState 0 [0, 2, 0]).2.1 1 (by decide)

/-! ### Claim theorems: safety oracle and capacity growth -/

/-- Claim C5: for every claimant list (with the data model's non-negative
allocation vectors) and available vector, `is_safe_state` returns `true` iff
`get_safe_sequence` returns a sequence rather than `None` - even though the
former collects all finishable claimants per pass while the latter restarts
the scan after each one; and with zero claimants `is_safe_state` returns
`true` while `get_safe_sequence` returns the empty sequence. -/
theorem safe_state_iff_safe_sequence :
    (∀ (ps : List Process) (avail : Vec), allocNonneg ps →
      (is_safe_state ps avail = true ↔ get_safe_sequence ps avail ≠ none)) ∧
    (∀ avail : Vec, is_safe_state [] avail = true ∧
      get_safe_sequence [] avail = some []) := by
  constructor
  · intro ps avail hnn
    constructor
    · intro h
      obtain ⟨s, hs⟩ := get_safe_sequence_complete hnn (is_safe_state_sound h)
      simp [hs]
    · intro h
      obtain ⟨s, hs⟩ := Option.ne_none_iff_exists'.mp h
      exact is_safe_state_complete hnn (get_safe_sequence_sound hs)
  · intro avail
    exact ⟨rfl, rfl⟩

/-- Witness for C5 at the classic scenario. -/
theorem safe_state_iff_safe_sequence_witness :
    is_safe_state mainProcesses [3, 3, 2] = true ↔
      get_safe_sequence mainProcesses [3, 3, 2] ≠ none :=
  safe_state_iff_safe_sequence.1 mainProcesses [3, 3, 2]
    (by unfold allocNonneg; decide)

/-- Claim C6: `add_resources` increments `total` and `available` componentwise
by the delta vector (pure integer arithmetic - it never fails); and for a
componentwise non-negative delta and data-model claimants, any available
vector accepted by `is_safe_state` is still accepted after growing by the
delta: adding capacity never makes a safe state unsafe. -/
theorem add_resources_growth_and_safety :
    (∀ (r : Resource) (d : Vec) (i : Nat),
      i < r.total_resources.length → i < d.length →
      (add_resources r d).total_resources.getD i 0
        = r.total_resources.getD i 0 + d.getD i 0) ∧
    (∀ (r : Resource) (d : Vec) (i : Nat),
      i < r.available_resources.length → i < d.length →
      (add_resources r d).available_resources.getD i 0
        = r.available_resources.getD i 0 + d.getD i 0) ∧
    (∀ (ps : List Process) (avail d : Vec), allocNonneg ps →
      (∀ x ∈ d, 0 ≤ x) → is_safe_state ps avail = true →
      is_safe_state ps (addVec avail d) = true) := by
  refine ⟨?_, ?_, ?_⟩
  · intro r d i h1 h2
    exact addVec_getD _ _ _ h1 h2
  · intro r d i h1 h2
    exact addVec_getD _ _ _ h1 h2
  · intro ps avail d hnn hd h
    obtain ⟨l, hperm, hvc⟩ := is_safe_state_sound h
    exact is_safe_state_complete hnn
      ⟨l, hperm, validChain_mono hvc (le_addVec avail d hd)⟩

/-- Witness for C6: growing the classic scenario's available vector keeps it
safe. -/
theorem add_resources_growth_and_safety_witness :
    is_safe_state mainProcesses (addVec [3, 3, 2] [1, 0, 2]) = true :=
  add_resources_growth_and_safety.2.2 mainProcesses [3, 3, 2] [1, 0, 2]
    (by unfold allocNonneg; decide) (by decide) (by decide)

/-- Componentwise reading of a `false` verdict of `anyGt`. -/
theorem anyGt_eq_false_iff (r v : Vec) (h : r.length ≤ v.length) :
    anyGt r v = false ↔ ∀ i, i < r.length → r.getD i 0 ≤ v.getD i 0 := by
  constructor
  · intro hf i hi
    by_contra hlt
    have hb : anyGt r v = true := (anyGt_eq_true_iff r v h).mpr ⟨i, hi, by omega⟩
    rw [hf] at hb
    simp at hb
  · intro hall
    cases hx : anyGt r v
    · rfl
    · obtain ⟨i, hi, hlt⟩ := (anyGt_eq_true_iff r v h).mp hx
      have := hall i hi
      omega

/-- Claim C7 (amended): `request_resources` checks the claim bound first, then
availability, then safety, with first-failure short-circuit; the denial
reasons are the source's literal strings "Request exceeds maximum claim",
"Resources not available" and "Unsafe state". -/
theorem denial_order_and_reasons : ∀ (s : SysState) (idx : Nat) (request : Vec)
    (p : Process), s.processes[idx]? = some p →
    request.length ≤ p.need.length →
    request.length ≤ s.resources.available_resources.length →
    (((∃ i, i < request.length ∧ p.need.getD i 0 < request.getD i 0) →
      request_resources s idx request
        = ((false, "Request exceeds maximum claim"), s)) ∧
     ((∀ i, i < request.length → request.getD i 0 ≤ p.need.getD i 0) →
      (∃ i, i < request.length ∧
          s.resources.available_resources.getD i 0 < request.getD i 0) →
      request_resources s idx request
        = ((false, "Resources not available"), s)) ∧
     ((∀ i, i < request.length → request.getD i 0 ≤ p.need.getD i 0) →
      (∀ i, i < request.length →
          request.getD i 0 ≤ s.resources.available_resources.getD i 0) →
      is_safe_state
        (s.processes.set idx
          { p with allocated_resources := addReq p.allocated_resources request
                   need := subReq p.need request })
        (subReq s.resources.available_resources request) = false →
      request_resources s idx request = ((false, "Unsafe state"), s))) := by
  intro s idx request p hp hl1 hl2
  refine ⟨?_, ?_, ?_⟩
  · intro hex
    exact request_eq_of_exceeds hp ((anyGt_eq_true_iff _ _ hl1).mpr hex)
  · intro hall hex
    exact request_eq_of_unavailable hp ((anyGt_eq_false_iff _ _ hl1).mpr hall)
      ((anyGt_eq_true_iff _ _ hl2).mpr hex)
  · intro hall1 hall2 hnotsafe
    exact request_eq_of_rollback hp ((anyGt_eq_false_iff _ _ hl1).mpr hall1)
      ((anyGt_eq_false_iff _ _ hl2).mpr hall2) hnotsafe

/-- Witness for C7's amended statement: in `tightState`, the request `[3]`
passes the claim check, fails availability, and is denied with the source's
"Resources not available" string, state untouched. -/
theorem denial_order_and_reasons_witness :
    request_resources tightState 0 [3]
      = ((false, "Resources not available"), tightState) :=
  (denial_order_and_reasons tightState 0 [3] (mkProcess 0 [3] [0]) (by decide)
      (by decide) (by decide)).2.1 (by decide) ⟨0, by decide, by decide⟩

/-- Counterexample for C7 as stated: each denial path returns the source's
reason string, which is not the spec's quoted reason string. -/
theorem denial_reason_strings_cx :
    (request_resources tightState 0 [4]).1
        = (false, "Request exceeds maximum claim") ∧
    "Request exceeds maximum claim" ≠ "exceeds maximum claim" ∧
    (request_resources tightState 0 [3]).1 = (false, "Resources not available") ∧
    "Resources not available" ≠ "insufficient available resources" ∧
    (request_resources tightState 0 [1]).1 = (false, "Unsafe state") ∧
    "Unsafe state" ≠ "would create unsafe state" :=
  ⟨by decide, by decide, by decide, by decide, by decide, by decide⟩

/-- Claim C4 (amended): `request_resources` performs no validation of request
length or sign: its only gates are the componentwise comparisons over the
request's indices and the safety check, so whenever those pass the request
is granted - negative or wrong-length request vectors included. -/
theorem no_malformed_request_validation : ∀ (s : SysState) (idx : Nat)
    (request : Vec) (p : Process), s.processes[idx]? = some p →
    anyGt request p.need = false →
    anyGt request s.resources.available_resources = false →
    is_safe_state
      (s.processes.set idx
        { p with allocated_resources := addReq p.allocated_resources request
                 need := subReq p.need request })
      (subReq s.resources.available_resources request) = true →
    (request_resources s idx request).1.1 = true := by
  intro s idx request p hp h1 h2 h3
  rw [request_eq_of_safe hp h1 h2 h3]

/-- Witness for C4's amended statement: the negative request `[-1, 0, 0]` is
granted. -/
theorem no_malformed_request_validation_witness :
    (request_resources mainState 0 [-1, 0, 0]).1.1 = true :=
  no_malformed_request_validation mainState 0 [-1, 0, 0]
    (mkProcess 0 [7, 5, 3] [0, 1, 0]) (by decide) (by decide) (by decide)
    (by decide)

/-- Counterexample for C4 as stated: a request with a negative quantity is
granted and mutates the state, and a request whose length differs from the
configured resource-type count 3 is also granted - neither is rejected. -/
theorem negative_request_granted_cx :
    ((-1 : Int) < 0 ∧ (request_resources mainState 0 [-1, 0, 0]).1.1 = true ∧
      (request_resources mainState 0 [-1, 0, 0]).2 ≠ mainState) ∧
    ((1 : Nat) ≠ mainState.resources.total_resources.length ∧
      (request_resources mainState 0 [1]).1.1 = true) :=
  ⟨⟨by decide, by decide, by decide⟩, by decide, by decide⟩

/-- Claim C2 fails on the code: at the `__main__` state, immediately after the
pool and claimants are constructed, the per-type sum of allocations plus the
available vector is `[17, 7, 12]`, not the total `[10, 5, 7]` -
`Resource.__init__` sets `available = total.copy()` and ignores the
claimants' initial allocations. -/
theorem conservation_violated_at_startup :
    addVec (total_allocated mainState.processes
        mainState.resources.total_resources)
      mainState.resources.available_resources
      ≠ mainState.resources.total_resources ∧
    addVec (total_allocated mainState.processes
        mainState.resources.total_resources)
      mainState.resources.available_resources = [17, 7, 12] :=
  ⟨by decide, by decide⟩

/-- Claim C9: for the concrete 5-claimant, 3-resource-type scenario, the
available vector [3,3,2] satisfies `is_safe_state`; claimant 1's need is
[1,2,2] and claimant 3's need is [0,1,1]; `get_safe_sequence` returns the
order 1,3,0,2,4; and valid finishing orders starting with claimant 1 and
with claimant 3 both exist. -/
theorem classic_scenario_safe :
    is_safe_state mainProcesses [3, 3, 2] = true ∧
    (mainProcesses.map Process.need)[1]? = some [1, 2, 2] ∧
    (mainProcesses.map Process.need)[3]? = some [0, 1, 1] ∧
    get_safe_sequence mainProcesses [3, 3, 2] = some [1, 3, 0, 2, 4] ∧
    (∃ l, List.Perm mainProcesses l ∧ validChain [3, 3, 2] l = true ∧
      (l.map Process.id)[0]? = some 1) ∧
    (∃ l, List.Perm mainProcesses l ∧ validChain [3, 3, 2] l = true ∧
      (l.map Process.id)[0]? = some 3) := by
  refine ⟨by decide, by decide, by decide, by decide,
    ⟨[proc1, proc3, proc0, proc2, proc4], by decide, by decide, by decide⟩,
    ⟨[proc3, proc1, proc0, proc2, proc4], by decide, by decide, by decide⟩⟩
